import Mathlib

/-!
Verification development for the frostdb snippets: block persistence
(`TableBlock.Persist`), bucket-backed block iteration
(`Table.IterateBucketBlocks`), the range-read adapter
(`BucketReaderAt.ReadAt`), and the streaming distinct operator
(`Distinction.Callback`).

Machine integers of the source (uint64 hashes, int64 sizes) are modelled as
`Nat`; byte buffers as `List Nat`; Go errors as `Option String` or
`Except String`; the object store and the arrow runtime are modelled by the
contracts the code consumes (function parameters and explicit data).
-/

/-! ## Block persistence: `TableBlock.Persist` (src/unnamed/part_000)

The Go code pipes the serialiser into the bucket upload:

  if t.table.db.bucket == nil { return nil }
  r, w := io.Pipe()
  var err error
  go func() { defer w.Close(); err = t.Serialize(w) }()
  defer r.Close()
  fileName := filepath.Join(t.table.name, t.ulid.String(), "data.parquet")
  if err := t.table.db.bucket.Upload(ctx, fileName, r); err != nil {
    return fmt.Errorf("failed to upload block %v", err) }
  if err != nil { return fmt.Errorf("failed to serialize block: %v", err) }
  return nil

The pipe closes (EOF to the uploader) only after the serialiser's error is
assigned, so in the pipe-synchronised execution the upload's result is a
function of the bytes the serialiser managed to write (a truncated body when
it failed), and the serialiser's error is available once Upload returns. We
embed that sequentialised execution: `serBytes` are the bytes written to the
pipe, `serErr` the serialiser's outcome, `upload` the bucket's response to a
given body. The event list records the I/O performed. -/

/-- Error type of `Persist`: `uploadFailed e` stands for the Go error
string "failed to upload block " followed by e, `serializeFailed e` for
"failed to serialize block: " followed by e. -/
inductive PersistError where
  | uploadFailed : String → PersistError
  | serializeFailed : String → PersistError
deriving DecidableEq, Repr

/-- I/O events performed by `persist`: one upload of the given body. -/
inductive PersistEv where
  | uploadCalled : List Nat → PersistEv
deriving DecidableEq, Repr

/-- Embeds `TableBlock.Persist`. `bucket = none` models a nil bucket handle.
Returns the I/O trace and the result. -/
def persist (bucket : Option Unit) (serBytes : List Nat) (serErr : Option String)
    (upload : List Nat → Option String) : List PersistEv × Except PersistError Unit :=
  match bucket with
  | none => ([], .ok ())
  | some _ =>
    match upload serBytes with
    | some e => ([.uploadCalled serBytes], .error (.uploadFailed e))
    | none =>
      match serErr with
      | some e => ([.uploadCalled serBytes], .error (.serializeFailed e))
      | none => ([.uploadCalled serBytes], .ok ())

/-! ## Range-read adapter: `BucketReaderAt.ReadAt` (src/unnamed/part_000)

  func (b *BucketReaderAt) ReadAt(p []byte, off int64) (n int, err error) {
    rc, err := b.GetRange(b.ctx, b.name, off, int64(len(p)))
    if err != nil { return 0, err }
    defer func() { err = rc.Close() }()
    return rc.Read(p)
  }

`GetRange` returns a stream; a stream is modelled by the successive chunks a
reader would deliver, the error the first `Read` reports alongside its bytes,
and the result of `Close`. The code performs a single `Read` into the buffer
and then the deferred closure overwrites the named return `err` with the
result of `Close`. -/

/-- A stream returned by `GetRange`: `chunks` are the byte runs successive
`Read` calls deliver (their concatenation is the requested range),
`readErr` is the error the first `Read` returns together with its bytes,
`closeErr` the result of `Close`. -/
structure RangeStream where
  chunks : List (List Nat)
  readErr : Option String
  closeErr : Option String

/-- A single `rc.Read(p)` call with a buffer of length `bufLen`: delivers the
first chunk (truncated to the buffer) and the stream's read error. -/
def streamRead (rc : RangeStream) (bufLen : Nat) : List Nat × Option String :=
  ((rc.chunks.headD []).take bufLen, rc.readErr)

/-- Embeds `BucketReaderAt.ReadAt`. Returns the bytes placed in the buffer and
the returned error. After a successful `GetRange`, the deferred
`err = rc.Close()` replaces the single `Read`'s error with the close result. -/
def readAt (getRange : Nat → Nat → Except String RangeStream)
    (off bufLen : Nat) : List Nat × Option String :=
  match getRange off bufLen with
  | .error e => ([], some e)
  | .ok rc => ((streamRead rc bufLen).1, rc.closeErr)

/-- The byte range B[off:off+len] of a stored object. -/
def listExtract (B : List Nat) (off len : Nat) : List Nat :=
  (B.drop off).take len

/-! ## Bucket block iteration: `Table.IterateBucketBlocks` (src/unnamed/part_000)

The bucket's listing is a list of block directories; each parses (or not) to
a ulid whose time component we keep, and on success opening it (Attributes
stat, parquet.OpenFile, NewSerializedBuffer) yields its row groups. Row
groups are modelled as numbers handed to the filter and the yield function.
The trace records, per block index, the Attributes/open step and each
filter evaluation and yield invocation.

Faithful detail: when the yield function returns stop, the per-block
callback executes `return err` where `err` is nil (the preceding
`filter.Eval` succeeded), so `bucket.Iter` sees a nil error and continues
with the next listed block. -/

/-- One listed block directory: the ulid parse result (`none` = malformed,
`some t` = time component t) and the combined outcome of
Attributes/OpenFile/NewSerializedBuffer (the row groups on success). -/
structure BBlock where
  ulidParse : Option Nat
  openResult : Except String (List Nat)

/-- Trace events of the iteration, tagged with the block's listing index:
`blockOpened b` is the Attributes stat / file open of block b, `rgEval b i`
the filter evaluation on its row group i, `yielded b i` the invocation of
the yield function on that row group. -/
inductive Ev where
  | blockOpened : Nat → Ev
  | rgEval : Nat → Nat → Ev
  | yielded : Nat → Nat → Ev
deriving DecidableEq, Repr

/-- The block index an event belongs to. -/
def Ev.blk : Ev → Nat
  | blockOpened b => b
  | rgEval b _ => b
  | yielded b _ => b

/-- The row-group loop of the per-block callback. `f` is `filter.Eval`, `y`
the caller's yield; `b` the block index, `i` the current row-group index.
On filter error the callback returns that error; when yield returns stop the
callback returns `err`, which is nil at that point. -/
def rgLoop (f : Nat → Except String Bool) (y : Nat → Bool) (b i : Nat) :
    List Nat → List Ev × Except String Unit
  | [] => ([], .ok ())
  | rg :: rest =>
    match f rg with
    | .error e => ([.rgEval b i], .error e)
    | .ok true =>
      if y rg then
        (.rgEval b i :: .yielded b i :: (rgLoop f y b (i+1) rest).1,
         (rgLoop f y b (i+1) rest).2)
      else
        ([.rgEval b i, .yielded b i], .ok ())
    | .ok false =>
      (.rgEval b i :: (rgLoop f y b (i+1) rest).1, (rgLoop f y b (i+1) rest).2)

/-- The fold of the per-block callback over the bucket listing (the semantics
of `bucket.Iter`: stop at the first callback error, otherwise continue).
`H` is `lastBlockTimestamp`, `idx` the listing index of the head block. -/
def iterAux (f : Nat → Except String Bool) (y : Nat → Bool) (H idx : Nat) :
    List BBlock → List Ev × Except String Unit
  | [] => ([], .ok ())
  | b :: rest =>
    match b.ulidParse with
    | none => ([], .error "failed to parse block ulid")
    | some t =>
      if H ≠ 0 ∧ H ≤ t then iterAux f y H (idx+1) rest
      else
        match b.openResult with
        | .error e => ([.blockOpened idx], .error e)
        | .ok rgs =>
          match rgLoop f y idx 0 rgs with
          | (evs, .error e) => (.blockOpened idx :: evs, .error e)
          | (evs, .ok _) =>
            (.blockOpened idx :: evs ++ (iterAux f y H (idx+1) rest).1,
             (iterAux f y H (idx+1) rest).2)

/-- Embeds `Table.IterateBucketBlocks`: returns immediately when no bucket is
configured or `ignoreStorageOnQuery` is set, otherwise folds the per-block
callback over the listing. -/
def iterateBucketBlocks (bucket : Option (List BBlock)) (ignoreStorageOnQuery : Bool)
    (f : Nat → Except String Bool) (y : Nat → Bool) (lastBlockTimestamp : Nat) :
    List Ev × Except String Unit :=
  match bucket with
  | none => ([], .ok ())
  | some blocks =>
    if ignoreStorageOnQuery then ([], .ok ())
    else iterAux f y lastBlockTimestamp 0 blocks

/-- The same fold with the horizon branch removed, written from the spec's
words "horizon 0 means no skip": used to state that with horizon 0 no block
is skipped on account of its time. -/
def iterAuxNoSkip (f : Nat → Except String Bool) (y : Nat → Bool) (idx : Nat) :
    List BBlock → List Ev × Except String Unit
  | [] => ([], .ok ())
  | b :: rest =>
    match b.ulidParse with
    | none => ([], .error "failed to parse block ulid")
    | some _ =>
      match b.openResult with
      | .error e => ([.blockOpened idx], .error e)
      | .ok rgs =>
        match rgLoop f y idx 0 rgs with
        | (evs, .error e) => (.blockOpened idx :: evs, .error e)
        | (evs, .ok _) =>
          (.blockOpened idx :: evs ++ (iterAuxNoSkip f y (idx+1) rest).1,
           (iterAuxNoSkip f y (idx+1) rest).2)

/-! ## Streaming distinct operator: `Distinction.Callback`
(src/query/physicalplan/distinct.go)

An arrow record is modelled by its schema field names, its columns (one list
of cells per field, a cell being `none` for a null position), and its row
count. A projection expression is modelled by its `MatchColumn` predicate on
field names. The operator's `seen` map of composite hashes is a list with
membership semantics (an entry is inserted only when absent, as in the Go
row loop).

The per-row column hashes (`hashArray`), the field-name hash
(`scalar.Hash` with the operator's seed) and `hashCombine` live elsewhere in
the repository; the callback embedding is parameterised by them
(`cellHash`, `nameHash`, `combine`), and concrete instances modelled from
the spec are provided below for evaluation. -/

/-- A cell of an arrow column: `none` is a null position. -/
abbrev Cell := Option Int

/-- An arrow record: schema field names, one column per field, row count. -/
structure ARecord where
  fields : List String
  cols : List (List Cell)
  numRows : Nat
deriving DecidableEq, Repr

/-- The field-selection loop of `Distinction.Callback`: for each schema field
(paired with its column), for each projection expression whose `MatchColumn`
accepts the field name, append the (field, column) pair. A field matched by
several expressions is appended once per matching expression (the inner loop
has no break). -/
def selectDistinct (exprs : List (String → Bool)) (r : ARecord) :
    List (String × List Cell) :=
  (r.fields.zip r.cols).flatMap fun fc =>
    (exprs.filter fun e => e fc.1).map fun _ => fc

/-- The per-row composite hash of `Distinction.Callback`: starting from 0,
fold over the selected columns; a column whose per-row hash is 0 (the null
sentinel) is skipped, otherwise fold in
`combine(h, combine(nameHash(field), cellHash(cell)))`. -/
def compositeHash (nameHash : String → Nat) (combine : Nat → Nat → Nat)
    (cellHash : Cell → Nat) (sel : List (String × List Cell)) (i : Nat) : Nat :=
  sel.foldl (fun h fc =>
    let ch := cellHash (fc.2.getD i none)
    if ch = 0 then h else combine h (combine (nameHash fc.1) ch)) 0

/-- The row loop of `Distinction.Callback` over row indices: a row whose
composite hash is already in `seen` is skipped, otherwise it is emitted and
its hash inserted. Returns the final seen set and the emitted row indices in
order. -/
def distinctRows (hash : Nat → Nat) : List Nat → List Nat → List Nat × List Nat
  | [], seen => (seen, [])
  | i :: rest, seen =>
    if hash i ∈ seen then distinctRows hash rest seen
    else ((distinctRows hash rest (hash i :: seen)).1,
          i :: (distinctRows hash rest (hash i :: seen)).2)

/-- Embeds `Distinction.Callback` for one record: select the matched columns,
hash and deduplicate the rows, and when at least one row was emitted build
the output record (selected fields as schema, emitted rows as columns);
when no row was emitted nothing is forwarded downstream (`none`). -/
def callback (nameHash : String → Nat) (combine : Nat → Nat → Nat)
    (cellHash : Cell → Nat) (exprs : List (String → Bool))
    (seen : List Nat) (r : ARecord) : List Nat × Option ARecord :=
  let sel := selectDistinct exprs r
  let res := distinctRows (compositeHash nameHash combine cellHash sel)
    (List.range r.numRows) seen
  (res.1,
   if res.2.isEmpty then none
   else some
     { fields := sel.map Prod.fst
       cols := sel.map fun fc => res.2.map fun i => fc.2.getD i none
       numRows := res.2.length })

/-- The composite hashes of the rows one `callback` invocation emits. -/
def callbackHashes (nameHash : String → Nat) (combine : Nat → Nat → Nat)
    (cellHash : Cell → Nat) (exprs : List (String → Bool))
    (seen : List Nat) (r : ARecord) : List Nat :=
  let sel := selectDistinct exprs r
  let h := compositeHash nameHash combine cellHash sel
  ((distinctRows h (List.range r.numRows) seen).2).map h

/-- A single-threaded sequence of `callback` invocations, threading the seen
set through and collecting the records forwarded downstream. -/
def runCallbacks (nameHash : String → Nat) (combine : Nat → Nat → Nat)
    (cellHash : Cell → Nat) (exprs : List (String → Bool))
    (seen : List Nat) : List ARecord → List Nat × List ARecord
  | [] => (seen, [])
  | r :: rs =>
    match callback nameHash combine cellHash exprs seen r with
    | (s1, out) =>
      match runCallbacks nameHash combine cellHash exprs s1 rs with
      | (s2, outs) =>
        (s2, match out with | none => outs | some o => o :: outs)

/-- The composite hashes of all rows forwarded over a sequence of `callback`
invocations, in emission order. -/
def runHashes (nameHash : String → Nat) (combine : Nat → Nat → Nat)
    (cellHash : Cell → Nat) (exprs : List (String → Bool))
    (seen : List Nat) : List ARecord → List Nat
  | [] => []
  | r :: rs =>
    callbackHashes nameHash combine cellHash exprs seen r ++
    runHashes nameHash combine cellHash exprs
      (callback nameHash combine cellHash exprs seen r).1 rs

/-- Modelled from the spec: the repository's `hashArray` (not under src/)
computes a per-row 64-bit hash of a column and writes the sentinel 0 at
null/empty positions. This concrete cell-level instance keeps the sentinel
property, `hashCell none = 0`. -/
def hashCell : Cell → Nat
  | none => 0
  | some v => v.natAbs % 2 ^ 64 + 1

/-- Modelled from the spec: the repository's `hashCombine` (not under src/)
is an order-sensitive 64-bit mixer folding one hash into another. -/
def hashCombine (a b : Nat) : Nat := (a * 31 + b) % 2 ^ 64

/-- Modelled from the spec: the hash of a field name with the operator's
seed (`scalar.Hash(d.hashSeed, scalar.NewStringScalar(name))` in the
source, not under src/). -/
def hashName (s : String) : Nat := s.length + 1

/-! ## Claim theorems: persistence, range reads, no-bucket no-ops -/

/-- C8: when no bucket is configured (nil handle), `Persist` returns success
immediately with no I/O performed, and `IterateBucketBlocks` returns success
with an empty trace: no block opened, no row group evaluated or yielded. -/
theorem no_bucket_noop (serBytes : List Nat) (serErr : Option String)
    (upload : List Nat → Option String) (ig : Bool)
    (f : Nat → Except String Bool) (y : Nat → Bool) (H : Nat) :
    persist none serBytes serErr upload = ([], Except.ok ()) ∧
    iterateBucketBlocks none ig f y H = ([], Except.ok ()) :=
  ⟨rfl, rfl⟩

/-- C3: `Persist` returns a single error distinguishing upload failure from
serialisation failure (the two constructors are distinct), and when the
serialiser failed while the upload of the truncated body succeeded, the
serialisation error is returned rather than success. -/
theorem persist_error_distinguishes (serBytes : List Nat) (serErr : Option String)
    (upload : List Nat → Option String) :
    (∀ a b, PersistError.uploadFailed a ≠ PersistError.serializeFailed b) ∧
    (∀ e, upload serBytes = some e →
      (persist (some ()) serBytes serErr upload).2
        = Except.error (PersistError.uploadFailed e)) ∧
    (∀ e, upload serBytes = none → serErr = some e →
      (persist (some ()) serBytes serErr upload).2
        = Except.error (PersistError.serializeFailed e)) := by
  refine ⟨fun a b h => PersistError.noConfusion h, fun e h => ?_, fun e h1 h2 => ?_⟩
  · simp [persist, h]
  · simp [persist, h1, h2]

/-- Witness for C3: a serialiser failure with a succeeding upload surfaces as
the serialisation error. -/
theorem persist_error_distinguishes_witness :
    (persist (some ()) [1, 2] (some "serialize boom") (fun _ => none)).2
      = Except.error (PersistError.serializeFailed "serialize boom") :=
  (persist_error_distinguishes [1, 2] (some "serialize boom") (fun _ => none)).2.2
    "serialize boom" rfl rfl

/-- C9: whenever `GetRange` succeeds, `ReadAt` returns the bytes of the single
`Read` together with the result of `Close`, which replaces whatever error the
`Read` reported: a read failure after a successful `GetRange` is not
observable in the returned error. -/
theorem readAt_close_error_replaces_read_error
    (getRange : Nat → Nat → Except String RangeStream) (off bufLen : Nat)
    (rc : RangeStream) (h : getRange off bufLen = Except.ok rc) :
    readAt getRange off bufLen = ((streamRead rc bufLen).1, rc.closeErr) := by
  simp [readAt, h]

/-- Witness for C9: a failing `Read` followed by a successful `Close` yields a
nil returned error. -/
theorem readAt_close_error_replaces_read_error_witness :
    readAt (fun _ _ => Except.ok ⟨[[1, 2]], some "read failed", none⟩) 0 2
      = ([1, 2], none) :=
  readAt_close_error_replaces_read_error _ 0 2 ⟨[[1, 2]], some "read failed", none⟩ rfl

/-- C4 failing input: the stored object holds bytes [1,2,3,4]; the range
stream for (offset 0, length 4) delivers exactly those bytes but in two
chunks [1,2] and [3,4]. The single `Read` returns only the first chunk, so
`ReadAt` returns ([1,2], nil error): the buffer is not filled with
B[0:4] = [1,2,3,4] although the stream had not ended, contradicting the
claim and the io.ReaderAt contract the method documents itself as
implementing. -/
theorem readAt_short_read_bug :
    readAt (fun _ _ => Except.ok ⟨[[1, 2], [3, 4]], none, none⟩) 0 4
      = ([1, 2], none) ∧
    ([[1, 2], [3, 4]] : List (List Nat)).flatten = listExtract [1, 2, 3, 4] 0 4 ∧
    ([1, 2] : List Nat) ≠ listExtract [1, 2, 3, 4] 0 4 :=
  ⟨rfl, rfl, by decide⟩

/-! ## Claim theorems: block iteration -/

/-- C1 failing input: two well-formed blocks with one row group each, an
always-true filter and a yield that returns stop on the first row group it
sees. The yield stops on row group 0 of block 0, yet the trace shows block 1
being opened and its row group evaluated and yielded afterwards, and the
iteration ends in success: the per-block callback returned a nil error on
stop, so `bucket.Iter` continued with the remaining blocks. -/
theorem iterate_continues_after_yield_stop :
    iterateBucketBlocks (some [⟨some 1, Except.ok [7]⟩, ⟨some 2, Except.ok [8]⟩])
      false (fun _ => Except.ok true) (fun _ => false) 0
    = ([Ev.blockOpened 0, Ev.rgEval 0 0, Ev.yielded 0 0,
        Ev.blockOpened 1, Ev.rgEval 1 0, Ev.yielded 1 0], Except.ok ()) := rfl

/-- Every event the row-group loop produces belongs to its own block. -/
theorem rgLoop_blk (f : Nat → Except String Bool) (y : Nat → Bool) (b : Nat) :
    ∀ (l : List Nat) (i : Nat) (e : Ev), e ∈ (rgLoop f y b i l).1 → Ev.blk e = b := by
  intro l
  induction l with
  | nil =>
    intro i e he
    simp [rgLoop] at he
  | cons rg rest ih =>
    intro i e he
    simp only [rgLoop] at he
    rcases hf : f rg with er | mc
    · rw [hf] at he
      simp at he
      subst he
      rfl
    · rw [hf] at he
      rcases mc
      case false =>
        simp at he
        rcases he with he | he
        · subst he; rfl
        · exact ih (i+1) e he
      case true =>
        rcases hy : y rg
        case false =>
          simp [hy] at he
          rcases he with he | he <;> (subst he; rfl)
        case true =>
          simp [hy] at he
          rcases he with he | he | he
          · subst he; rfl
          · subst he; rfl
          · exact ih (i+1) e he

/-- Events produced from a listing suffix starting at index `idx` belong to
blocks of index at least `idx`. -/
theorem iterAux_blk_ge (f : Nat → Except String Bool) (y : Nat → Bool) (H : Nat) :
    ∀ (l : List BBlock) (idx : Nat) (e : Ev),
      e ∈ (iterAux f y H idx l).1 → idx ≤ Ev.blk e := by
  intro l
  induction l with
  | nil =>
    intro idx e he
    simp [iterAux] at he
  | cons b rest ih =>
    intro idx e he
    simp only [iterAux] at he
    split at he
    · simp at he
    · split at he
      · exact Nat.le_of_succ_le (ih (idx+1) e he)
      · split at he
        · simp at he
          subst he
          exact Nat.le_refl idx
        · rename_i rgs heq2
          split at he
          · rename_i evs er2 heq3
            simp at he
            rcases he with he | he
            · subst he; exact Nat.le_refl idx
            · have hevs : e ∈ (rgLoop f y idx 0 rgs).1 := by rw [heq3]; exact he
              exact Nat.le_of_eq (rgLoop_blk f y idx rgs 0 e hevs).symm
          · rename_i evs u heq3
            simp at he
            rcases he with he | he | he
            · subst he; exact Nat.le_refl idx
            · have hevs : e ∈ (rgLoop f y idx 0 rgs).1 := by rw [heq3]; exact he
              exact Nat.le_of_eq (rgLoop_blk f y idx rgs 0 e hevs).symm
            · exact Nat.le_of_succ_le (ih (idx+1) e he)

/-- When the horizon is non-zero, a listed block whose identifier time is at
or past the horizon contributes no event at all: it is never opened and none
of its row groups is evaluated or yielded. -/
theorem iterAux_skip (f : Nat → Except String Bool) (y : Nat → Bool)
    (H : Nat) (hH : H ≠ 0) :
    ∀ (l : List BBlock) (idx k : Nat) (b : BBlock) (t : Nat),
      l.get? k = some b → b.ulidParse = some t → H ≤ t →
      ∀ e ∈ (iterAux f y H idx l).1, Ev.blk e ≠ idx + k := by
  intro l
  induction l with
  | nil =>
    intro idx k b t hg
    simp [List.get?] at hg
  | cons hd rest ih =>
    intro idx k b t hg hp ht e he hblk
    cases k with
    | zero =>
      simp [List.get?] at hg
      subst hg
      simp only [iterAux] at he
      split at he
      · rename_i heq
        rw [hp] at heq
        cases heq
      · rename_i t2 heq
        rw [hp] at heq
        injection heq with heq
        subst heq
        split at he
        · have := iterAux_blk_ge f y H rest (idx+1) e he
          omega
        · rename_i hcond
          exact hcond ⟨hH, ht⟩
    | succ j =>
      have hg2 : rest.get? j = some b := by simpa [List.get?] using hg
      simp only [iterAux] at he
      split at he
      · simp at he
      · split at he
        · exact ih (idx+1) j b t hg2 hp ht e he (by omega)
        · split at he
          · simp at he
            subst he
            simp [Ev.blk] at hblk
          · rename_i rgs heq2
            split at he
            · rename_i evs er2 heq3
              simp at he
              rcases he with he | he
              · subst he; simp [Ev.blk] at hblk
              · have hevs : e ∈ (rgLoop f y idx 0 rgs).1 := by rw [heq3]; exact he
                have := rgLoop_blk f y idx rgs 0 e hevs
                omega
            · rename_i evs u heq3
              simp at he
              rcases he with he | he | he
              · subst he; simp [Ev.blk] at hblk
              · have hevs : e ∈ (rgLoop f y idx 0 rgs).1 := by rw [heq3]; exact he
                have := rgLoop_blk f y idx rgs 0 e hevs
                omega
              · exact ih (idx+1) j b t hg2 hp ht e he (by omega)

/-- With horizon 0 the fold coincides with the fold that has no horizon
branch: no block is ever skipped on account of its time. -/
theorem iterAux_zero_noskip (f : Nat → Except String Bool) (y : Nat → Bool) :
    ∀ (l : List BBlock) (idx : Nat), iterAux f y 0 idx l = iterAuxNoSkip f y idx l := by
  intro l
  induction l with
  | nil => intro idx; rfl
  | cons b rest ih =>
    intro idx
    simp only [iterAux, iterAuxNoSkip]
    split
    · rfl
    · rw [if_neg (by simp), ih (idx+1)]

/-- C5: with horizon H > 0, a block whose identifier time is at or past H is
never opened (no Attributes stat, no file open) and none of its row groups
is evaluated or yielded — no trace event carries its listing index; and with
horizon 0 the iteration equals the iteration without the horizon branch, so
no block is skipped on account of its time. -/
theorem iterate_horizon_correct (f : Nat → Except String Bool) (y : Nat → Bool)
    (blocks : List BBlock) :
    (∀ H k b t, H ≠ 0 → blocks.get? k = some b → b.ulidParse = some t → H ≤ t →
      ∀ e ∈ (iterateBucketBlocks (some blocks) false f y H).1, Ev.blk e ≠ k) ∧
    iterateBucketBlocks (some blocks) false f y 0 = iterAuxNoSkip f y 0 blocks := by
  constructor
  · intro H k b t hH hg hp ht e he hblk
    have hne : Ev.blk e ≠ 0 + k :=
      iterAux_skip f y H hH blocks 0 k b t hg hp ht e
        (by simpa [iterateBucketBlocks] using he)
    exact hne (by omega)
  · simp [iterateBucketBlocks, iterAux_zero_noskip]

/-- Witness for C5: one block with identifier time 12 behind a horizon of 10
is never opened. -/
theorem iterate_horizon_correct_witness :
    Ev.blockOpened 0 ∉ (iterateBucketBlocks (some [⟨some 12, Except.ok [5]⟩]) false
      (fun _ => Except.ok true) (fun _ => true) 10).1 := by
  intro hmem
  exact (iterate_horizon_correct (fun _ => Except.ok true) (fun _ => true)
    [⟨some 12, Except.ok [5]⟩]).1 10 0 ⟨some 12, Except.ok [5]⟩ 12 (by decide) rfl rfl
    (by decide) (Ev.blockOpened 0) hmem rfl

/-! ## Claim theorems: distinct operator -/

/-- The row loop never loses seen hashes: the final seen set contains the
initial one. -/
theorem distinctRows_sub (hash : Nat → Nat) :
    ∀ (l seen : List Nat) (h : Nat), h ∈ seen → h ∈ (distinctRows hash l seen).1 := by
  intro l
  induction l with
  | nil =>
    intro seen h hh
    simpa [distinctRows] using hh
  | cons j rest ih =>
    intro seen h hh
    simp only [distinctRows]
    by_cases hj : hash j ∈ seen
    · rw [if_pos hj]
      exact ih seen h hh
    · rw [if_neg hj]
      exact ih (hash j :: seen) h (List.mem_cons_of_mem _ hh)

/-- The hash of every emitted row is recorded in the final seen set. -/
theorem distinctRows_emitted_mem (hash : Nat → Nat) :
    ∀ (l seen : List Nat) (i : Nat), i ∈ (distinctRows hash l seen).2 →
      hash i ∈ (distinctRows hash l seen).1 := by
  intro l
  induction l with
  | nil =>
    intro seen i hi
    simp [distinctRows] at hi
  | cons j rest ih =>
    intro seen i hi
    simp only [distinctRows] at hi ⊢
    by_cases hj : hash j ∈ seen
    · rw [if_pos hj] at hi ⊢
      exact ih seen i hi
    · rw [if_neg hj] at hi ⊢
      simp only [List.mem_cons] at hi
      rcases hi with rfl | hi
      · exact distinctRows_sub hash rest (hash i :: seen) (hash i) (List.mem_cons_self _ _)
      · exact ih (hash j :: seen) i hi

/-- The hash of every emitted row was absent from the seen set the row was
checked against: emitted rows are fresh. -/
theorem distinctRows_fresh (hash : Nat → Nat) :
    ∀ (l seen : List Nat) (i : Nat), i ∈ (distinctRows hash l seen).2 → hash i ∉ seen := by
  intro l
  induction l with
  | nil =>
    intro seen i hi
    simp [distinctRows] at hi
  | cons j rest ih =>
    intro seen i hi
    simp only [distinctRows] at hi
    by_cases hj : hash j ∈ seen
    · rw [if_pos hj] at hi
      exact ih seen i hi
    · rw [if_neg hj] at hi
      simp only [List.mem_cons] at hi
      rcases hi with rfl | hi
      · exact hj
      · intro hmem
        exact ih (hash j :: seen) i hi (List.mem_cons_of_mem _ hmem)

/-- The hashes of the rows emitted by one pass of the row loop are pairwise
distinct. -/
theorem distinctRows_nodup (hash : Nat → Nat) :
    ∀ (l seen : List Nat), ((distinctRows hash l seen).2.map hash).Nodup := by
  intro l
  induction l with
  | nil =>
    intro seen
    simp [distinctRows]
  | cons j rest ih =>
    intro seen
    simp only [distinctRows]
    by_cases hj : hash j ∈ seen
    · rw [if_pos hj]
      exact ih seen
    · rw [if_neg hj]
      simp only [List.map_cons, List.nodup_cons]
      constructor
      · intro hmem
        rcases List.mem_map.mp hmem with ⟨i, hi, hhi⟩
        exact distinctRows_fresh hash rest (hash j :: seen) i hi
          (by rw [hhi]; exact List.mem_cons_self _ _)
      · exact ih (hash j :: seen)

/-- The seen set only grows across one `callback` invocation. -/
theorem callback_seen_sub (nh : String → Nat) (cmb : Nat → Nat → Nat) (ch : Cell → Nat)
    (exprs : List (String → Bool)) (seen : List Nat) (r : ARecord) :
    ∀ h ∈ seen, h ∈ (callback nh cmb ch exprs seen r).1 := by
  intro h hh
  exact distinctRows_sub (compositeHash nh cmb ch (selectDistinct exprs r))
    (List.range r.numRows) seen h hh

/-- The composite hashes a `callback` invocation emits were absent from its
initial seen set. -/
theorem callbackHashes_fresh (nh : String → Nat) (cmb : Nat → Nat → Nat) (ch : Cell → Nat)
    (exprs : List (String → Bool)) (seen : List Nat) (r : ARecord) :
    ∀ h ∈ callbackHashes nh cmb ch exprs seen r, h ∉ seen := by
  intro h hh
  simp only [callbackHashes] at hh
  rcases List.mem_map.mp hh with ⟨i, hi, rfl⟩
  exact distinctRows_fresh _ _ _ i hi

/-- The composite hashes a `callback` invocation emits are in its final seen
set. -/
theorem callbackHashes_mem_seen (nh : String → Nat) (cmb : Nat → Nat → Nat) (ch : Cell → Nat)
    (exprs : List (String → Bool)) (seen : List Nat) (r : ARecord) :
    ∀ h ∈ callbackHashes nh cmb ch exprs seen r,
      h ∈ (callback nh cmb ch exprs seen r).1 := by
  intro h hh
  simp only [callbackHashes] at hh
  rcases List.mem_map.mp hh with ⟨i, hi, rfl⟩
  exact distinctRows_emitted_mem _ _ _ i hi

/-- Over a whole run, the emitted composite hashes are pairwise distinct and
disjoint from the initial seen set. -/
theorem runHashes_nodup_aux (nh : String → Nat) (cmb : Nat → Nat → Nat) (ch : Cell → Nat)
    (exprs : List (String → Bool)) :
    ∀ (rs : List ARecord) (seen : List Nat),
      (runHashes nh cmb ch exprs seen rs).Nodup ∧
      ∀ h ∈ runHashes nh cmb ch exprs seen rs, h ∉ seen := by
  intro rs
  induction rs with
  | nil =>
    intro seen
    simp [runHashes]
  | cons r rest ih =>
    intro seen
    simp only [runHashes]
    constructor
    · rw [List.nodup_append]
      refine ⟨?_, (ih _).1, ?_⟩
      · simp only [callbackHashes]
        exact distinctRows_nodup _ _ _
      · intro h h1 h2
        exact (ih _).2 h h2 (callbackHashes_mem_seen nh cmb ch exprs seen r h h1)
    · intro h hh
      rcases List.mem_append.mp hh with h1 | h2
      · exact callbackHashes_fresh nh cmb ch exprs seen r h h1
      · intro hseen
        exact (ih _).2 h h2 (callback_seen_sub nh cmb ch exprs seen r h hseen)

/-- C6: for a single-threaded producer making any sequence of `callback`
invocations from a fresh operator, no composite hash value is ever emitted
twice over the operator's lifetime — the multiset of forwarded rows contains
each distinct-column tuple at most once modulo composite-hash collisions,
for every choice of name, cell and combining hash functions. -/
theorem distinct_no_hash_twice (nh : String → Nat) (cmb : Nat → Nat → Nat)
    (ch : Cell → Nat) (exprs : List (String → Bool)) (rs : List ARecord) :
    (runHashes nh cmb ch exprs [] rs).Nodup :=
  (runHashes_nodup_aux nh cmb ch exprs rs []).1

/-- When every row hash is already seen, the row loop emits nothing and the
seen set is unchanged. -/
theorem distinctRows_allseen (hash : Nat → Nat) :
    ∀ (l seen : List Nat), (∀ i ∈ l, hash i ∈ seen) →
      distinctRows hash l seen = (seen, []) := by
  intro l
  induction l with
  | nil =>
    intro seen _
    rfl
  | cons j rest ih =>
    intro seen hall
    simp only [distinctRows]
    rw [if_pos (hall j (List.mem_cons_self _ _))]
    exact ih seen fun i hi => hall i (List.mem_cons_of_mem _ hi)

/-- When every row of the record hashes to 0 and 0 is unseen, exactly the
first row (index 0) is emitted, and 0 is recorded as seen. -/
theorem distinctRows_zero_hash (hash : Nat → Nat) (n : Nat) (seen : List Nat)
    (hall : ∀ i < n, hash i = 0) (h0 : (0:Nat) ∉ seen) (hn : 0 < n) :
    distinctRows hash (List.range n) seen = (0 :: seen, [0]) := by
  obtain ⟨m, rfl⟩ : ∃ m, n = m + 1 := ⟨n - 1, by omega⟩
  rw [List.range_succ_eq_map]
  simp only [distinctRows]
  have h00 : hash 0 = 0 := hall 0 (by omega)
  rw [if_neg (by rw [h00]; exact h0)]
  have hrest : distinctRows hash ((List.range m).map Nat.succ) (hash 0 :: seen)
      = (hash 0 :: seen, []) := by
    apply distinctRows_allseen
    intro i hi
    rcases List.mem_map.mp hi with ⟨j, hj, rfl⟩
    rw [hall j.succ (Nat.succ_lt_succ (List.mem_range.mp hj)), h00]
    exact List.mem_cons_self _ _
  rw [hrest, h00]

/-- The null sentinel skips a column: when a column's per-row hash at row i
is 0, the composite at row i is the composite with that column removed. -/
theorem compositeHash_skip (nh : String → Nat) (cmb : Nat → Nat → Nat) (ch : Cell → Nat)
    (sel1 sel2 : List (String × List Cell)) (g : String) (c : List Cell) (i : Nat)
    (hzero : ch (c.getD i none) = 0) :
    compositeHash nh cmb ch (sel1 ++ (g, c) :: sel2) i
      = compositeHash nh cmb ch (sel1 ++ sel2) i := by
  have hstep : ∀ acc : Nat,
      (fun h fc => let ch2 := ch ((Prod.snd fc).getD i none);
        if ch2 = 0 then h else cmb h (cmb (nh (Prod.fst fc)) ch2)) acc (g, c) = acc := by
    intro acc
    show (if ch (c.getD i none) = 0 then acc
          else cmb acc (cmb (nh g) (ch (c.getD i none)))) = acc
    rw [if_pos hzero]
  simp only [compositeHash, List.foldl_append, List.foldl_cons, hstep]

/-- C7: a per-row column hash of 0 (the null sentinel) causes the column to
be skipped from that row's composite; hence for a record whose single
distinct column is null in every row, every row's composite is 0, and a
callback on it (0 unseen) emits exactly the first row — the forwarded record
has one row, all later rows deduplicating against composite 0. -/
theorem distinct_null_sentinel (nh : String → Nat) (cmb : Nat → Nat → Nat)
    (ch : Cell → Nat) (hch : ch none = 0) (exprs : List (String → Bool))
    (r : ARecord) (g : String) (col : List Cell)
    (hsel : selectDistinct exprs r = [(g, col)])
    (hnull : ∀ i < r.numRows, col.getD i none = none)
    (seen : List Nat) (h0 : (0:Nat) ∉ seen) (hrows : 0 < r.numRows) :
    (∀ (sel1 sel2 : List (String × List Cell)) (g2 : String) (c : List Cell) (i : Nat),
      ch (c.getD i none) = 0 →
      compositeHash nh cmb ch (sel1 ++ (g2, c) :: sel2) i
        = compositeHash nh cmb ch (sel1 ++ sel2) i) ∧
    (∀ i < r.numRows, compositeHash nh cmb ch (selectDistinct exprs r) i = 0) ∧
    callback nh cmb ch exprs seen r = (0 :: seen, some ⟨[g], [[none]], 1⟩) := by
  have hz : ∀ i < r.numRows, compositeHash nh cmb ch (selectDistinct exprs r) i = 0 := by
    intro i hi
    rw [hsel]
    have hskip := compositeHash_skip nh cmb ch [] [] g col i (by rw [hnull i hi, hch])
    simpa using hskip
  refine ⟨fun sel1 sel2 g2 c i hzero =>
    compositeHash_skip nh cmb ch sel1 sel2 g2 c i hzero, hz, ?_⟩
  have hz2 : ∀ i < r.numRows, compositeHash nh cmb ch [(g, col)] i = 0 := by
    intro i hi
    rw [← hsel]
    exact hz i hi
  simp only [callback]
  rw [hsel, distinctRows_zero_hash _ _ _ hz2 h0 hrows]
  simp
  simpa using hnull 0 hrows

/-- Witness for C7: a two-row record whose single matched column is null in
both rows forwards exactly one row. -/
theorem distinct_null_sentinel_witness :
    callback hashName hashCombine hashCell [fun s => s == "a"] []
      ⟨["a"], [[none, none]], 2⟩ = ([0], some ⟨["a"], [[none]], 1⟩) :=
  (distinct_null_sentinel hashName hashCombine hashCell rfl [fun s => s == "a"]
    ⟨["a"], [[none, none]], 2⟩ "a" [none, none] rfl (by decide) [] (by decide)
    (by decide)).2.2

/-- The selected fields are the schema fields repeated once per matching
expression, in schema order (provided each field has its column). -/
theorem selectDistinct_map_fst (exprs : List (String → Bool)) :
    ∀ (fs : List String) (cs : List (List Cell)), cs.length = fs.length →
      ((fs.zip cs).flatMap fun fc =>
        (exprs.filter fun e => e fc.1).map fun _ => fc).map Prod.fst
      = fs.flatMap fun g => (exprs.filter fun e => e g).map fun _ => g := by
  intro fs
  induction fs with
  | nil =>
    intro cs h
    simp
  | cons g fs ih =>
    intro cs h
    cases cs with
    | nil => simp at h
    | cons c cs =>
      simp only [List.zip_cons_cons, List.flatMap_cons, List.map_append, List.map_map]
      rw [ih cs (by simpa using h)]
      congr 1

/-- C2 (amended): whenever a `callback` forwards a record downstream, the
output record's schema consists of the input fields matched by projection
expressions, appearing once per matching expression, in the input schema's
field-iteration order. -/
theorem distinct_schema_matched_multiplicity (nh : String → Nat) (cmb : Nat → Nat → Nat)
    (ch : Cell → Nat) (exprs : List (String → Bool)) (r : ARecord)
    (hw : r.cols.length = r.fields.length)
    (seen s2 : List Nat) (out : ARecord)
    (hcb : callback nh cmb ch exprs seen r = (s2, some out)) :
    out.fields = r.fields.flatMap fun g => (exprs.filter fun e => e g).map fun _ => g := by
  simp only [callback, Prod.mk.injEq] at hcb
  obtain ⟨-, h2⟩ := hcb
  split at h2
  · exact Option.noConfusion h2
  · injection h2 with h3
    rw [← h3]
    show (selectDistinct exprs r).map Prod.fst = _
    exact selectDistinct_map_fst exprs r.fields r.cols hw

/-- Witness for the amended C2: with one expression matching field a, the
forwarded schema is exactly [a]. -/
theorem distinct_schema_matched_multiplicity_witness :
    (ARecord.mk ["a"] [[some 1]] 1).fields
      = (["a", "b"].flatMap fun g =>
          (([fun s => s == "a"] : List (String → Bool)).filter fun e => e g).map
            fun _ => g) :=
  distinct_schema_matched_multiplicity hashName hashCombine hashCell
    [fun s => s == "a"] ⟨["a", "b"], [[some 1], [some 2]], 1⟩ rfl [] [64]
    ⟨["a"], [[some 1]], 1⟩ rfl

/-- C2 counterexample: a record with single field a and two projection
expressions both matching a causes a downstream emission whose schema lists
a twice — not "each matched field once" as claimed. -/
theorem distinct_schema_duplicate_field :
    (callback hashName hashCombine hashCell [fun _ => true, fun _ => true] []
      ⟨["a"], [[some 1]], 1⟩).2
      = some ⟨["a", "a"], [[some 1], [some 1]], 1⟩ ∧
    (["a", "a"] : List String) ≠ ["a"] :=
  ⟨rfl, by decide⟩

/-- When no schema field is matched by any projection expression, the
selection loop keeps nothing. -/
theorem selectDistinct_nil (exprs : List (String → Bool)) (r : ARecord)
    (hnm : ∀ g ∈ r.fields, ∀ e ∈ exprs, e g = false) :
    selectDistinct exprs r = [] := by
  simp only [selectDistinct]
  rw [List.flatMap_eq_nil_iff]
  intro fc hfc
  rw [List.map_eq_nil_iff, List.filter_eq_nil_iff]
  intro e he
  simp [hnm fc.1 (List.of_mem_zip hfc).1 e he]

/-- A forwarded record with an empty schema can only arise while composite 0
is unseen, and it records 0 as seen. -/
theorem callback_emptyfields_not_seen (nh : String → Nat) (cmb : Nat → Nat → Nat)
    (ch : Cell → Nat) (exprs : List (String → Bool)) (seen : List Nat) (r : ARecord)
    (out : ARecord) (hcb : (callback nh cmb ch exprs seen r).2 = some out)
    (hf : out.fields = []) :
    (0:Nat) ∉ seen ∧ (0:Nat) ∈ (callback nh cmb ch exprs seen r).1 := by
  simp only [callback] at hcb
  split at hcb
  · exact Option.noConfusion hcb
  · rename_i hne
    injection hcb with hcb
    rw [← hcb] at hf
    have hsel0 : selectDistinct exprs r = [] := by
      have hmap : (selectDistinct exprs r).map Prod.fst = [] := hf
      exact List.map_eq_nil_iff.mp hmap
    rw [hsel0] at hne
    constructor
    · intro h0
      rw [distinctRows_allseen (compositeHash nh cmb ch [])
        (List.range r.numRows) seen (fun i _ => h0)] at hne
      exact hne rfl
    · have hne2 : (distinctRows (compositeHash nh cmb ch [])
          (List.range r.numRows) seen).2 ≠ [] := by
        intro hnil
        exact hne (by rw [hnil]; rfl)
      obtain ⟨i, hi⟩ := List.exists_mem_of_ne_nil _ hne2
      have hmem := distinctRows_emitted_mem (compositeHash nh cmb ch [])
        (List.range r.numRows) seen i hi
      show (0:Nat) ∈ (distinctRows (compositeHash nh cmb ch (selectDistinct exprs r))
        (List.range r.numRows) seen).1
      rw [hsel0]
      exact hmem

/-- Once composite 0 is seen, no later record in a run ever forwards a
zero-column record. -/
theorem run_no_empty_after_zero (nh : String → Nat) (cmb : Nat → Nat → Nat)
    (ch : Cell → Nat) (exprs : List (String → Bool)) :
    ∀ (rs : List ARecord) (seen : List Nat), (0:Nat) ∈ seen →
      ((runCallbacks nh cmb ch exprs seen rs).2.countP fun o => o.fields.isEmpty) = 0 := by
  intro rs
  induction rs with
  | nil =>
    intro seen h0
    simp [runCallbacks]
  | cons r rest ih =>
    intro seen h0
    simp only [runCallbacks]
    rcases hcb : callback nh cmb ch exprs seen r with ⟨s1, out⟩
    have h01 : (0:Nat) ∈ s1 := by
      have hs := callback_seen_sub nh cmb ch exprs seen r 0 h0
      rw [hcb] at hs
      exact hs
    rcases hrun : runCallbacks nh cmb ch exprs s1 rest with ⟨s2, outs⟩
    have houts : outs.countP (fun o => o.fields.isEmpty) = 0 := by
      have hih := ih s1 h01
      rw [hrun] at hih
      exact hih
    rcases out with _ | o
    · simp only [hcb, hrun]
      exact houts
    · have hne : ¬ (o.fields.isEmpty = true) := by
        intro hemp
        have hcc : (callback nh cmb ch exprs seen r).2 = some o := by rw [hcb]
        exact (callback_emptyfields_not_seen nh cmb ch exprs seen r o hcc
          (List.isEmpty_iff.mp hemp)).1 h0
      simp only [hcb, hrun]
      simp [List.countP_cons, hne, houts]

/-- Over any run, at most one zero-column record is ever forwarded. -/
theorem run_empty_count_le_one (nh : String → Nat) (cmb : Nat → Nat → Nat)
    (ch : Cell → Nat) (exprs : List (String → Bool)) :
    ∀ (rs : List ARecord) (seen : List Nat),
      ((runCallbacks nh cmb ch exprs seen rs).2.countP fun o => o.fields.isEmpty) ≤ 1 := by
  intro rs
  induction rs with
  | nil =>
    intro seen
    simp [runCallbacks]
  | cons r rest ih =>
    intro seen
    simp only [runCallbacks]
    rcases hcb : callback nh cmb ch exprs seen r with ⟨s1, out⟩
    rcases hrun : runCallbacks nh cmb ch exprs s1 rest with ⟨s2, outs⟩
    have hle : outs.countP (fun o => o.fields.isEmpty) ≤ 1 := by
      have hih := ih s1
      rw [hrun] at hih
      exact hih
    rcases out with _ | o
    · simp only [hcb, hrun]
      exact hle
    · simp only [hcb, hrun]
      by_cases hemp : o.fields.isEmpty = true
      · have hcc : (callback nh cmb ch exprs seen r).2 = some o := by rw [hcb]
        have h0s1 : (0:Nat) ∈ s1 := by
          have hzz := (callback_emptyfields_not_seen nh cmb ch exprs seen r o hcc
            (List.isEmpty_iff.mp hemp)).2
          rw [hcb] at hzz
          exact hzz
        have houts : outs.countP (fun o => o.fields.isEmpty) = 0 := by
          have hz0 := run_no_empty_after_zero nh cmb ch exprs rest s1 h0s1
          rw [hrun] at hz0
          exact hz0
        simp [List.countP_cons, hemp, houts]
      · simpa [List.countP_cons, hemp] using hle

/-- C10 (amended): a record with at least one row none of whose schema
fields is matched by any projection expression gives composite 0 for every
row; the callback forwards a record with zero columns and exactly one row
when composite 0 is still unseen, and forwards nothing when 0 was already
seen (for instance after an earlier record emitted an all-null row); over
any run at most one zero-column record is ever forwarded. -/
theorem distinct_unmatched_zero_columns (nh : String → Nat) (cmb : Nat → Nat → Nat)
    (ch : Cell → Nat) (exprs : List (String → Bool)) (r : ARecord) (seen : List Nat)
    (hnm : ∀ g ∈ r.fields, ∀ e ∈ exprs, e g = false) (hrows : 0 < r.numRows) :
    (∀ i < r.numRows, compositeHash nh cmb ch (selectDistinct exprs r) i = 0) ∧
    ((0:Nat) ∉ seen → callback nh cmb ch exprs seen r = (0 :: seen, some ⟨[], [], 1⟩)) ∧
    ((0:Nat) ∈ seen → callback nh cmb ch exprs seen r = (seen, none)) ∧
    (∀ rs : List ARecord,
      ((runCallbacks nh cmb ch exprs seen rs).2.countP fun o => o.fields.isEmpty) ≤ 1) := by
  have hsel0 : selectDistinct exprs r = [] := selectDistinct_nil exprs r hnm
  refine ⟨?_, ?_, ?_, fun rs => run_empty_count_le_one nh cmb ch exprs rs seen⟩
  · intro i _
    rw [hsel0]
    rfl
  · intro h0
    simp only [callback]
    rw [hsel0, distinctRows_zero_hash (compositeHash nh cmb ch [])
      r.numRows seen (fun i _ => rfl) h0 hrows]
    simp
  · intro h0
    simp only [callback]
    rw [hsel0, distinctRows_allseen (compositeHash nh cmb ch [])
      (List.range r.numRows) seen (fun i _ => h0)]
    simp

/-- Witness for the amended C10: a fresh operator receiving a one-row record
with no matched field forwards a record with zero columns and one row. -/
theorem distinct_unmatched_zero_columns_witness :
    callback hashName hashCombine hashCell [fun s => s == "a"] []
      ⟨["b"], [[some 5]], 1⟩ = ([0], some ⟨[], [], 1⟩) :=
  (distinct_unmatched_zero_columns hashName hashCombine hashCell [fun s => s == "a"]
    ⟨["b"], [[some 5]], 1⟩ [] (by decide) (by decide)).2.1 (by decide)

/-- C10 counterexample: the operator first processes a record whose matched
column is null (emitting it and recording composite 0), then an all-unmatched
one-row record. The second record forwards nothing — not a zero-column
one-row record as the claim states. -/
theorem distinct_unmatched_after_null_cex :
    runCallbacks hashName hashCombine hashCell [fun s => s == "a"] []
      [⟨["a"], [[none]], 1⟩, ⟨["b"], [[some 5]], 1⟩]
      = ([0], [⟨["a"], [[none]], 1⟩]) ∧
    ((fun s => s == "a") "b") = false ∧
    (callback hashName hashCombine hashCell [fun s => s == "a"] [0]
      ⟨["b"], [[some 5]], 1⟩).2 = none :=
  ⟨rfl, rfl, rfl⟩
